import Mathlib

/-!
Verification of the interactive graph editor core of the NeuroTrace
application (renderer/src/components/EditorCanvas.tsx and the
pipeline-result import in renderer/src/App.tsx), shallowly embedded in
Lean.

Coordinates are modelled with rationals; node and edge ids of the editor
are strings (the source generates them with uuidv4, so distinct creations
get distinct ids; freshness appears as an explicit hypothesis where it
matters). Pipeline-import node ids, which the source derives as the
string `node-x-y` from the coordinates, are modelled as the coordinate
pair itself.
-/

namespace NeuralGui

/-- A 2D point, used in both screen and image space (types.ts `Point`). -/
structure Point where
  x : ℚ
  y : ℚ
  deriving DecidableEq, Repr

instance : Inhabited Point := ⟨⟨0, 0⟩⟩

/-- A graph node in image coordinates (types.ts `Node`). -/
structure Node where
  id : String
  x : ℚ
  y : ℚ
  deriving DecidableEq, Repr

/-- A graph edge between two node ids, with an optional curved path
(types.ts `Edge`). -/
structure Edge where
  id : String
  sourceId : String
  targetId : String
  path : Option (List Point) := none
  deriving DecidableEq, Repr

/-- The full editable graph (types.ts `GraphData`). -/
structure GraphData where
  nodes : List Node
  edges : List Edge
  deriving DecidableEq, Repr

/-- The pan/zoom view transform (types.ts `ViewTransform`):
screen = image * scale + (x, y). -/
structure ViewTransform where
  x : ℚ
  y : ℚ
  scale : ℚ
  deriving DecidableEq, Repr

/-- The edit mode toggle (types.ts `EditMode`). -/
inductive EditMode where
  | view
  | edit
  deriving DecidableEq, Repr

/-- The context-menu state of EditorCanvas (`contextMenu` useState). -/
structure CtxMenu where
  x : ℚ
  y : ℚ
  edgeId : Option String := none
  nodeId : Option String := none
  deriving DecidableEq, Repr

/-- The part of EditorCanvas component state that the graph-editing
handlers read and write: the graph plus the chain/selection state. -/
structure EditorState where
  graph : GraphData
  activeChainStartNodeId : Option String
  selectedEdgeId : Option String
  selectedNodeId : Option String
  contextMenu : Option CtxMenu
  deriving DecidableEq, Repr

/-- The initial editor state: empty graph, no active chain, nothing
selected (the useState initialisers of App.tsx / EditorCanvas.tsx). -/
def initialState : EditorState :=
  { graph := ⟨[], []⟩
    activeChainStartNodeId := none
    selectedEdgeId := none
    selectedNodeId := none
    contextMenu := none }

/-- The bounding rectangle of the canvas container (the fields of
getBoundingClientRect that toImageCoords and handleWheel read). -/
structure Rect where
  left : ℚ
  top : ℚ
  deriving DecidableEq, Repr

/-- EditorCanvas.tsx `toImageCoords`: inverse-maps a screen coordinate
through the current transform; returns (0,0) when the container ref is
null. -/
def toImageCoords (container : Option Rect) (t : ViewTransform)
    (screenX screenY : ℚ) : Point :=
  match container with
  | none => ⟨0, 0⟩
  | some rect =>
      ⟨(screenX - rect.left - t.x) / t.scale,
       (screenY - rect.top - t.y) / t.scale⟩

/-- EditorCanvas.tsx `handleWheel`: clamp the rescaled scale to
[0.1, 10] and move the origin so the image point under the pointer stays
fixed. When the container ref is null the transform is not updated. -/
def handleWheel (container : Option Rect) (t : ViewTransform)
    (clientX clientY deltaY : ℚ) : ViewTransform :=
  let zoomIntensity : ℚ := 1 / 1000
  let newScale := min (max (1 / 10) (t.scale * (1 - deltaY * zoomIntensity))) 10
  match container with
  | none => t
  | some rect =>
      let mouseX := clientX - rect.left
      let mouseY := clientY - rect.top
      let scaleRatio := newScale / t.scale
      ⟨mouseX - (mouseX - t.x) * scaleRatio,
       mouseY - (mouseY - t.y) * scaleRatio,
       newScale⟩

/-- EditorCanvas.tsx `cleanupIsolatedNodes`: keep only the nodes that
occur as an endpoint of at least one edge. -/
def cleanupIsolatedNodes (currentNodes : List Node) (currentEdges : List Edge) :
    List Node :=
  currentNodes.filter fun n =>
    currentEdges.any fun e => e.sourceId == n.id || e.targetId == n.id

/-- EditorCanvas.tsx `deleteEdge`: drop the edge with the given id, prune
isolated nodes, clear the edge selection and close the context menu. The
chain anchor is left untouched (the source comments that a stale anchor
id is simply left in place). -/
def deleteEdge (s : EditorState) (edgeId : String) : EditorState :=
  let newEdges := s.graph.edges.filter fun e => e.id != edgeId
  let newNodes := cleanupIsolatedNodes s.graph.nodes newEdges
  { s with
    graph := ⟨newNodes, newEdges⟩
    selectedEdgeId := none
    contextMenu := none }

/-- EditorCanvas.tsx `deleteNode`: drop every incident edge, then the
node; reset the chain anchor when it pointed at the deleted node; clear
the node selection and close the context menu. -/
def deleteNode (s : EditorState) (nodeId : String) : EditorState :=
  let newEdges := s.graph.edges.filter fun e =>
    e.sourceId != nodeId && e.targetId != nodeId
  let newNodes := s.graph.nodes.filter fun n => n.id != nodeId
  { s with
    graph := ⟨newNodes, newEdges⟩
    activeChainStartNodeId :=
      if s.activeChainStartNodeId = some nodeId then none
      else s.activeChainStartNodeId
    selectedNodeId := none
    contextMenu := none }

/-- EditorCanvas.tsx `handleKeyDown`, Escape branch: reset the chain
anchor and clear all selection/context-menu state. The listener is
registered on window, independent of the edit mode. -/
def handleEscape (s : EditorState) : EditorState :=
  { s with
    activeChainStartNodeId := none
    selectedEdgeId := none
    selectedNodeId := none
    contextMenu := none }

/-- EditorCanvas.tsx `handleMouseDown`, right-button branch: in edit mode
stop the chain (anchor := null) and return; in view mode do nothing. -/
def handleRightMouseDown (mode : EditMode) (s : EditorState) : EditorState :=
  if mode = EditMode.edit then { s with activeChainStartNodeId := none }
  else s

/-- EditorCanvas.tsx `handleMouseDown`, edit-mode left click on empty
canvas: clear selections, create a node at the click's image coordinates,
and, when the chain anchor still exists in the graph, connect it to the
new node; the new node becomes the anchor. The freshly generated uuids
for the node and the prospective edge are passed as parameters. -/
def handleEmptyClick (s : EditorState) (coords : Point)
    (newNodeId newEdgeId : String) : EditorState :=
  let newNode : Node := ⟨newNodeId, coords.x, coords.y⟩
  let newNodes := s.graph.nodes ++ [newNode]
  let newEdges :=
    match s.activeChainStartNodeId with
    | some startId =>
        if s.graph.nodes.any fun n => n.id == startId then
          s.graph.edges ++ [⟨newEdgeId, startId, newNodeId, none⟩]
        else s.graph.edges
    | none => s.graph.edges
  { s with
    graph := ⟨newNodes, newEdges⟩
    activeChainStartNodeId := some newNodeId
    selectedEdgeId := none
    selectedNodeId := none
    contextMenu := none }

/-- EditorCanvas.tsx `handleNodeClick` (edit-mode left click on an
existing node): when a chain anchor is active and differs from the
clicked node, add an edge from the anchor to it unless one already
exists between the unordered pair; the clicked node becomes the anchor
and selections are cleared. The uuid for the prospective edge is passed
as a parameter. -/
def handleNodeClick (s : EditorState) (nodeId : String)
    (newEdgeId : String) : EditorState :=
  let newEdges :=
    match s.activeChainStartNodeId with
    | some startId =>
        if startId != nodeId then
          if s.graph.edges.any fun e =>
              (e.sourceId == startId && e.targetId == nodeId) ||
              (e.sourceId == nodeId && e.targetId == startId) then
            s.graph.edges
          else
            s.graph.edges ++ [⟨newEdgeId, startId, nodeId, none⟩]
        else s.graph.edges
    | none => s.graph.edges
  { s with
    graph := { s.graph with edges := newEdges }
    activeChainStartNodeId := some nodeId
    selectedEdgeId := none
    selectedNodeId := none }

/-- A node is incident to at least one edge of the given list
(propositional form of the connectedness test in cleanupIsolatedNodes). -/
def incident (edges : List Edge) (n : Node) : Prop :=
  ∃ e ∈ edges, e.sourceId = n.id ∨ e.targetId = n.id

instance (edges : List Edge) (n : Node) : Decidable (incident edges n) :=
  decidable_of_iff (∃ e ∈ edges, e.sourceId = n.id ∨ e.targetId = n.id) Iff.rfl

/-- Every edge's endpoints exist in the node collection (invariant 1 of
the spec). -/
def edgesWellFormed (g : GraphData) : Prop :=
  ∀ e ∈ g.edges,
    (∃ n ∈ g.nodes, n.id = e.sourceId) ∧ (∃ n ∈ g.nodes, n.id = e.targetId)

/-- C9: toImageCoords is total; with a null container ref it returns the
origin point (0,0) for every transform and screen position, so pointer
handlers cannot fail on a missing container. -/
theorem toImageCoords_null_container (t : ViewTransform) (sx sy : ℚ) :
    toImageCoords none t sx sy = ⟨0, 0⟩ := rfl

/-- C10: deleteEdge unconditionally clears the edge selection and closes
the context menu, and deleteNode unconditionally clears the node
selection and closes the context menu, whether or not the given id
exists. -/
theorem delete_clears_selection (s : EditorState) (eid nid : String) :
    (deleteEdge s eid).selectedEdgeId = none ∧
    (deleteEdge s eid).contextMenu = none ∧
    (deleteNode s nid).selectedNodeId = none ∧
    (deleteNode s nid).contextMenu = none :=
  ⟨rfl, rfl, rfl, rfl⟩

/-- An editor state with an open context menu and a selected node, used
to exhibit what a right-click does and does not clear. -/
def c5State : EditorState :=
  { graph := ⟨[⟨"n", 0, 0⟩, ⟨"m", 1, 0⟩], [⟨"e1", "n", "m", none⟩]⟩
    activeChainStartNodeId := some "n"
    selectedEdgeId := none
    selectedNodeId := some "n"
    contextMenu := some ⟨3, 4, none, some "n"⟩ }

/-- C5 counterexample: a right-click on the canvas in edit mode leaves
the node selection and the open context menu in place (it only resets
the chain anchor), and in view mode it does not even reset the anchor —
contradicting the claim that a right-click clears all of them in every
mode. -/
theorem rightClick_does_not_clear_selection :
    (handleRightMouseDown EditMode.edit c5State).selectedNodeId = some "n" ∧
    (handleRightMouseDown EditMode.edit c5State).contextMenu ≠ none ∧
    (handleRightMouseDown EditMode.view c5State).activeChainStartNodeId = some "n" := by
  refine ⟨rfl, ?_, rfl⟩
  intro h
  simp [handleRightMouseDown, c5State] at h

/-- C5 amended: the Escape key, in every mode, resets the chain anchor
and clears the node selection, the edge selection and the context menu,
deleting nothing from the graph; a right-click on the canvas only resets
the chain anchor, and only in edit mode (in view mode it changes
nothing), leaving selections, context menu and graph untouched. -/
theorem escape_clears_rightClick_stops_chain (s : EditorState) :
    (handleEscape s).activeChainStartNodeId = none ∧
    (handleEscape s).selectedEdgeId = none ∧
    (handleEscape s).selectedNodeId = none ∧
    (handleEscape s).contextMenu = none ∧
    (handleEscape s).graph = s.graph ∧
    (handleRightMouseDown EditMode.edit s).activeChainStartNodeId = none ∧
    (handleRightMouseDown EditMode.edit s).graph = s.graph ∧
    (handleRightMouseDown EditMode.edit s).selectedEdgeId = s.selectedEdgeId ∧
    (handleRightMouseDown EditMode.edit s).selectedNodeId = s.selectedNodeId ∧
    (handleRightMouseDown EditMode.edit s).contextMenu = s.contextMenu ∧
    handleRightMouseDown EditMode.view s = s := by
  refine ⟨rfl, rfl, rfl, rfl, rfl, ?_, ?_, ?_, ?_, ?_, ?_⟩ <;>
    simp [handleRightMouseDown, handleEscape]

/-- A state whose chain anchor "a" sits on a node joined to "b" by the
single edge "e1": deleting that edge prunes both nodes. -/
def c6State : EditorState :=
  { graph := ⟨[⟨"a", 0, 0⟩, ⟨"b", 1, 0⟩], [⟨"e1", "a", "b", none⟩]⟩
    activeChainStartNodeId := some "a"
    selectedEdgeId := none
    selectedNodeId := none
    contextMenu := none }

/-- C6 counterexample: deleting edge "e1" prunes the anchor node "a"
(no node with that id remains), yet the chain anchor still holds "a" —
isolated-node pruning triggered by edge deletion does not reset the
chain state to Idle. -/
theorem edge_prune_keeps_stale_anchor :
    (deleteEdge c6State "e1").activeChainStartNodeId = some "a" ∧
    ∀ n ∈ (deleteEdge c6State "e1").graph.nodes, n.id ≠ "a" := by
  constructor
  · rfl
  · decide

/-- C6 amended: direct node deletion resets the chain state to Idle when
the deleted id is the active anchor; edge deletion never changes the
chain anchor, even when its isolated-node pruning removes the anchor
node (the stale id is left in place). -/
theorem anchor_reset_only_on_direct_node_deletion (s : EditorState)
    (nid eid : String) :
    (s.activeChainStartNodeId = some nid →
      (deleteNode s nid).activeChainStartNodeId = none) ∧
    (deleteEdge s eid).activeChainStartNodeId = s.activeChainStartNodeId := by
  constructor
  · intro h
    simp [deleteNode, h]
  · rfl

/-- C6 amended witness at the concrete two-node state. -/
theorem anchor_reset_witness :
    (deleteNode c6State "a").activeChainStartNodeId = none ∧
    (deleteEdge c6State "e1").activeChainStartNodeId =
      c6State.activeChainStartNodeId :=
  ⟨(anchor_reset_only_on_direct_node_deletion c6State "a" "e1").1 rfl,
   (anchor_reset_only_on_direct_node_deletion c6State "a" "e1").2⟩

/-- A graph holding one isolated node and no edges. -/
def c8State : EditorState :=
  { graph := ⟨[⟨"a", 0, 0⟩], []⟩
    activeChainStartNodeId := none
    selectedEdgeId := none
    selectedNodeId := none
    contextMenu := none }

/-- C8 counterexample: the edge collection is empty, so the id "x" is
certainly absent, yet deleteEdge "x" is not a no-op: the isolated node
"a" is pruned and the node collection changes. -/
theorem deleteEdge_absent_id_prunes :
    c8State.graph.edges = [] ∧
    (deleteEdge c8State "x").graph.nodes ≠ c8State.graph.nodes := by
  constructor
  · rfl
  · decide

/-- C8 amended: invoking edge removal with an id absent from the edge
collection leaves the edge collection unchanged, but isolated-node
pruning still runs; the node collection (and hence the whole graph) is
unchanged when every node has an incident edge. -/
theorem deleteEdge_absent_id (s : EditorState) (eid : String)
    (habs : ∀ e ∈ s.graph.edges, e.id ≠ eid) :
    (deleteEdge s eid).graph.edges = s.graph.edges ∧
    ((∀ n ∈ s.graph.nodes, incident s.graph.edges n) →
      (deleteEdge s eid).graph.nodes = s.graph.nodes) := by
  have hedges : s.graph.edges.filter (fun e => e.id != eid) = s.graph.edges := by
    rw [List.filter_eq_self]
    intro e he
    simpa using habs e he
  constructor
  · simp [deleteEdge, hedges]
  · intro hinc
    simp only [deleteEdge, hedges, cleanupIsolatedNodes]
    rw [List.filter_eq_self]
    intro n hn
    rcases hinc n hn with ⟨e, he, hcase⟩
    simp only [List.any_eq_true, Bool.or_eq_true, beq_iff_eq]
    exact ⟨e, he, by tauto⟩

/-- C8 amended witness: on the two-node, one-edge state (every node
incident) deleting the absent id "zz" leaves the whole graph unchanged. -/
theorem deleteEdge_absent_id_witness :
    (∀ e ∈ c6State.graph.edges, e.id ≠ "zz") ∧
    (deleteEdge c6State "zz").graph.edges = c6State.graph.edges ∧
    (deleteEdge c6State "zz").graph.nodes = c6State.graph.nodes := by
  have h := deleteEdge_absent_id c6State "zz" (by decide)
  exact ⟨by decide, h.1, h.2 (by decide)⟩

/-- C2: when an edge with the given id is present, deleteEdge removes it
(no edge with that id remains), afterwards every remaining node is
incident to some remaining edge (no isolated node survives), and in
particular if no edge remains then no node remains — so a two-node,
one-edge graph loses both nodes. -/
theorem deleteEdge_removes_and_prunes (s : EditorState) (eid : String)
    (hmem : ∃ e ∈ s.graph.edges, e.id = eid) :
    (∀ e ∈ (deleteEdge s eid).graph.edges, e.id ≠ eid) ∧
    (∀ n ∈ (deleteEdge s eid).graph.nodes,
        incident (deleteEdge s eid).graph.edges n) ∧
    ((deleteEdge s eid).graph.edges = [] →
      (deleteEdge s eid).graph.nodes = []) := by
  refine ⟨?_, ?_, ?_⟩
  · intro e he
    simp only [deleteEdge, List.mem_filter, bne_iff_ne, ne_eq] at he
    exact he.2
  · intro n hn
    simp only [deleteEdge, cleanupIsolatedNodes, incident, List.mem_filter,
      List.any_eq_true, Bool.or_eq_true, beq_iff_eq] at hn ⊢
    rcases hn.2 with ⟨e, he, hcase⟩
    exact ⟨e, he, by tauto⟩
  · intro hempty
    have hnodes :
        (deleteEdge s eid).graph.nodes =
          cleanupIsolatedNodes s.graph.nodes
            (s.graph.edges.filter fun e => e.id != eid) := rfl
    have hedges :
        (deleteEdge s eid).graph.edges =
          s.graph.edges.filter (fun e => e.id != eid) := rfl
    rw [hedges] at hempty
    rw [hnodes, hempty]
    simp [cleanupIsolatedNodes]

/-- C2 witness: Scenario C on the concrete two-node, one-edge state —
deleting the only edge removes the edge and both now-isolated nodes. -/
theorem deleteEdge_removes_and_prunes_witness :
    (∀ e ∈ (deleteEdge c6State "e1").graph.edges, e.id ≠ "e1") ∧
    (deleteEdge c6State "e1").graph.nodes = [] ∧
    (deleteEdge c6State "e1").graph.edges = [] := by
  have h := deleteEdge_removes_and_prunes c6State "e1"
    ⟨⟨"e1", "a", "b", none⟩, by decide, rfl⟩
  exact ⟨h.1, h.2.2 (by decide), by decide⟩

/-- Number of edges joining the unordered pair of node ids {a, b}
(in either orientation). -/
def pairCount (edges : List Edge) (a b : String) : ℕ :=
  (edges.filter fun e =>
    (e.sourceId == a && e.targetId == b) ||
    (e.sourceId == b && e.targetId == a)).length

/-- C4: with the chain anchored at a, extending onto an existing node b
adds no edge when one already joins the unordered pair {a, b}, adds no
edge when b is the anchor itself, and starting from a graph with no edge
between a and b, two successive chain-extension attempts between the
pair (click b, then click a) leave exactly one edge with that unordered
endpoint pair. -/
theorem chain_extend_no_duplicate (s : EditorState) (a b eid eid2 : String)
    (hanchor : s.activeChainStartNodeId = some a) :
    ((∃ e ∈ s.graph.edges,
        (e.sourceId = a ∧ e.targetId = b) ∨ (e.sourceId = b ∧ e.targetId = a)) →
      (handleNodeClick s b eid).graph.edges = s.graph.edges) ∧
    (a = b → (handleNodeClick s b eid).graph.edges = s.graph.edges) ∧
    (a ≠ b → pairCount s.graph.edges a b = 0 →
      pairCount
        (handleNodeClick (handleNodeClick s b eid) a eid2).graph.edges a b
        = 1) := by
  refine ⟨?_, ?_, ?_⟩
  · intro hdup
    rcases eq_or_ne a b with hab | hab
    · subst hab
      simp [handleNodeClick, hanchor]
    · have hbne : (a != b) = true := bne_iff_ne.mpr hab
      have hany : (s.graph.edges.any fun e =>
          (e.sourceId == a && e.targetId == b) ||
          (e.sourceId == b && e.targetId == a)) = true := by
        rw [List.any_eq_true]
        rcases hdup with ⟨e, he, hcase⟩
        refine ⟨e, he, ?_⟩
        rcases hcase with ⟨h1, h2⟩ | ⟨h1, h2⟩ <;> simp [h1, h2]
      simp [handleNodeClick, hanchor, hbne, hany]
  · intro hab
    subst hab
    simp [handleNodeClick, hanchor]
  · intro hne h0
    rw [pairCount, List.length_eq_zero, List.filter_eq_nil_iff] at h0
    have hbne : (a != b) = true := bne_iff_ne.mpr hne
    have hany1 : (s.graph.edges.any fun e =>
        (e.sourceId == a && e.targetId == b) ||
        (e.sourceId == b && e.targetId == a)) = false := by
      rw [List.any_eq_false]
      intro e he
      exact h0 e he
    have hstep1 : (handleNodeClick s b eid).graph.edges
        = s.graph.edges ++ [⟨eid, a, b, none⟩] := by
      simp [handleNodeClick, hanchor, hbne, hany1]
    have hanchor1 : (handleNodeClick s b eid).activeChainStartNodeId = some b :=
      rfl
    have hbne2 : (b != a) = true := bne_iff_ne.mpr (Ne.symm hne)
    generalize hgen : handleNodeClick s b eid = s1 at hstep1 hanchor1 ⊢
    have hany2 : (s1.graph.edges.any fun e =>
        (e.sourceId == b && e.targetId == a) ||
        (e.sourceId == a && e.targetId == b)) = true := by
      rw [hstep1]
      simp [List.any_append]
    have hstep2 : (handleNodeClick s1 a eid2).graph.edges = s1.graph.edges := by
      simp [handleNodeClick, hanchor1, hbne2, hany2]
    rw [hstep2, hstep1, pairCount, List.filter_append, List.length_append]
    have hfl : (s.graph.edges.filter fun e =>
        (e.sourceId == a && e.targetId == b) ||
        (e.sourceId == b && e.targetId == a)) = [] := by
      rw [List.filter_eq_nil_iff]
      exact h0
    rw [hfl]
    simp

/-- A two-node state with no edges and the chain anchored at "a". -/
def c4State : EditorState :=
  { graph := ⟨[⟨"a", 0, 0⟩, ⟨"b", 1, 0⟩], []⟩
    activeChainStartNodeId := some "a"
    selectedEdgeId := none
    selectedNodeId := none
    contextMenu := none }

/-- C4 witness: Scenario E on the concrete state — clicking b then a
with the chain anchored at a yields exactly one edge between the pair. -/
theorem chain_extend_no_duplicate_witness :
    pairCount
      (handleNodeClick (handleNodeClick c4State "b" "e1") "a" "e2").graph.edges
      "a" "b" = 1 :=
  (chain_extend_no_duplicate c4State "a" "b" "e1" "e2" rfl).2.2
    (by decide) (by decide)

/-- C3: for a mounted container and a transform with scale in (0, 10],
the image point under the pointer is a fixpoint of zooming at the
pointer: toImageCoords at the pointer position is unchanged by
handleWheel (exactly, over the rationals). -/
theorem zoom_to_cursor_fixpoint (rect : Rect) (t : ViewTransform)
    (px py d : ℚ) (hpos : 0 < t.scale) (hle : t.scale ≤ 10) :
    toImageCoords (some rect) (handleWheel (some rect) t px py d) px py =
      toImageCoords (some rect) t px py := by
  have hs : t.scale ≠ 0 := ne_of_gt hpos
  have hpos' : (0 : ℚ) <
      min (max (1 / 10) (t.scale * (1 - d * (1 / 1000)))) 10 := by
    apply lt_min
    · exact lt_of_lt_of_le (by norm_num) (le_max_left _ _)
    · norm_num
  have hs' : min (max (1 / 10 : ℚ) (t.scale * (1 - d * (1 / 1000)))) 10 ≠ 0 :=
    ne_of_gt hpos'
  simp only [toImageCoords, handleWheel, Point.mk.injEq]
  constructor <;> (field_simp; ring)

/-- C3 witness at a concrete transform, pointer and wheel delta. -/
theorem zoom_to_cursor_fixpoint_witness :
    (0 : ℚ) < 1 ∧ (1 : ℚ) ≤ 10 ∧
    toImageCoords (some ⟨0, 0⟩)
        (handleWheel (some ⟨0, 0⟩) ⟨0, 0, 1⟩ 100 50 100) 100 50 =
      toImageCoords (some ⟨0, 0⟩) ⟨0, 0, 1⟩ 100 50 :=
  ⟨by norm_num, by norm_num,
   zoom_to_cursor_fixpoint ⟨0, 0⟩ ⟨0, 0, 1⟩ 100 50 100 (by norm_num)
     (by norm_num)⟩

/-- A pipeline-import node id. The source derives it as the string
`node-x-y` from the node's coordinates; it is modelled as the coordinate
pair itself (the derivation is deterministic, and injective on numeric
coordinates). -/
abbrev PNodeId := ℚ × ℚ

/-- A node produced by the pipeline import (App.tsx handleRunPipeline). -/
structure PNode where
  id : PNodeId
  x : ℚ
  y : ℚ
  deriving DecidableEq, Repr

/-- An edge produced by the pipeline import; its id is the string
`edge-index`, modelled as the index itself. -/
structure PEdge where
  id : ℕ
  sourceId : PNodeId
  targetId : PNodeId
  path : Option (List Point)
  deriving DecidableEq, Repr

/-- The graph assembled by the pipeline import. -/
structure PGraph where
  nodes : List PNode
  edges : List PEdge
  deriving DecidableEq, Repr

/-- The insert-if-absent step used at all three node-creation sites of
App.tsx handleRunPipeline (`if (!newNodes[id]) newNodes[id] = {id, x, y}`):
the record keyed by the coordinate-derived id keeps its insertion order,
modelled as an append-at-end list guarded by a lookup. -/
def insertNode (m : List PNode) (px py : ℚ) : List PNode :=
  if m.any fun n => n.id == (px, py) then m
  else m ++ [⟨(px, py), px, py⟩]

/-- App.tsx handleRunPipeline, seed processing: a seed `[y, x, ...]` with
at least two components inserts the node (x, y); shorter seeds are
skipped. -/
def processSeed (m : List PNode) (seed : List ℚ) : List PNode :=
  if 2 ≤ seed.length then insertNode m (seed.getD 1 0) (seed.getD 0 0)
  else m

/-- App.tsx handleRunPipeline, point parsing inside edge processing: a
raw point `[y, x, ...]` with at least two components becomes
`{x: point[1], y: point[0]}`; shorter entries map to null and are
filtered out. -/
def parsePoint (p : List ℚ) : Option Point :=
  if 2 ≤ p.length then some ⟨p.getD 1 0, p.getD 0 0⟩ else none

/-- App.tsx handleRunPipeline, edge processing of the entry at a given
index: parse and filter the points; with at least two valid points,
ensure nodes exist for the first and the last point and append an edge
between them whose path is the full parsed sequence exactly when it has
more than two points; otherwise the entry is dropped. -/
def processEdge (acc : List PNode × List PEdge)
    (entry : ℕ × List (List ℚ)) : List PNode × List PEdge :=
  if 2 ≤ entry.2.length then
    let path := entry.2.filterMap parsePoint
    if 2 ≤ path.length then
      let startPoint := path.headI
      let endPoint := path.getLastI
      let m1 := insertNode acc.1 startPoint.x startPoint.y
      let m2 := insertNode m1 endPoint.x endPoint.y
      (m2, acc.2 ++ [⟨entry.1, (startPoint.x, startPoint.y),
                     (endPoint.x, endPoint.y),
                     if 2 < path.length then some path else none⟩])
    else acc
  else acc

/-- App.tsx handleRunPipeline, result conversion: fold the seeds into a
deduplicated node collection, then fold the indexed point-sequences into
edges (creating missing endpoint nodes), yielding the imported graph. -/
def convertPipelineResult (seeds : List (List ℚ))
    (rawEdges : List (List (List ℚ))) : PGraph :=
  let m0 := seeds.foldl processSeed []
  let res := rawEdges.enum.foldl processEdge (m0, [])
  ⟨res.1, res.2⟩

/-- The edge that the entry at a given index contributes, if any: the
per-entry outcome of processEdge, which does not depend on the
accumulator. -/
def edgeOfEntry (idx : ℕ) (raw : List (List ℚ)) : Option PEdge :=
  if 2 ≤ raw.length then
    let path := raw.filterMap parsePoint
    if 2 ≤ path.length then
      some ⟨idx, (path.headI.x, path.headI.y),
            (path.getLastI.x, path.getLastI.y),
            if 2 < path.length then some path else none⟩
    else none
  else none

/-- A node with the given coordinate-derived id is present. -/
def hasNodeId (m : List PNode) (idp : PNodeId) : Prop :=
  ∃ n ∈ m, n.id = idp

instance (m : List PNode) (idp : PNodeId) : Decidable (hasNodeId m idp) :=
  decidable_of_iff (∃ n ∈ m, n.id = idp) Iff.rfl

theorem insertNode_cases (m : List PNode) (px py : ℚ) :
    insertNode m px py = m ∨
    (insertNode m px py = m ++ [⟨(px, py), px, py⟩] ∧
      ∀ n ∈ m, n.id ≠ (px, py)) := by
  unfold insertNode
  by_cases hc : (m.any fun n => n.id == (px, py)) = true
  · left
    rw [if_pos hc]
  · right
    refine ⟨if_neg hc, ?_⟩
    intro n hn heq
    apply hc
    rw [List.any_eq_true]
    exact ⟨n, hn, by simp [heq]⟩

theorem insertNode_mono (m : List PNode) (px py : ℚ) (idp : PNodeId)
    (h : hasNodeId m idp) : hasNodeId (insertNode m px py) idp := by
  rcases insertNode_cases m px py with hc | ⟨hc, _⟩ <;> rw [hc]
  · exact h
  · rcases h with ⟨n, hn, hid⟩
    exact ⟨n, List.mem_append_left _ hn, hid⟩

theorem insertNode_self (m : List PNode) (px py : ℚ) :
    hasNodeId (insertNode m px py) (px, py) := by
  unfold insertNode
  by_cases hc : (m.any fun n => n.id == (px, py)) = true
  · rw [if_pos hc]
    rw [List.any_eq_true] at hc
    rcases hc with ⟨n, hn, hbeq⟩
    exact ⟨n, hn, by simpa using hbeq⟩
  · rw [if_neg hc]
    exact ⟨⟨(px, py), px, py⟩, List.mem_append_right _ (by simp), rfl⟩

theorem insertNode_coords (m : List PNode) (px py : ℚ)
    (h : ∀ n ∈ m, n.id = (n.x, n.y)) :
    ∀ n ∈ insertNode m px py, n.id = (n.x, n.y) := by
  rcases insertNode_cases m px py with hc | ⟨hc, _⟩ <;> rw [hc]
  · exact h
  · intro n hn
    rcases List.mem_append.mp hn with h1 | h1
    · exact h n h1
    · simp only [List.mem_singleton] at h1
      subst h1
      rfl

theorem insertNode_nodup (m : List PNode) (px py : ℚ)
    (h : (m.map PNode.id).Nodup) :
    ((insertNode m px py).map PNode.id).Nodup := by
  rcases insertNode_cases m px py with hc | ⟨hc, hfresh⟩ <;> rw [hc]
  · exact h
  · rw [List.map_append]
    refine List.Nodup.append h (List.nodup_singleton _) ?_
    intro x hx1 hx2
    simp only [List.map_cons, List.map_nil, List.mem_singleton] at hx2
    subst hx2
    rcases List.mem_map.mp hx1 with ⟨n, hn, hid⟩
    exact hfresh n hn hid

theorem processSeed_of_len (m : List PNode) (s : List ℚ) (h : 2 ≤ s.length) :
    processSeed m s = insertNode m (s.getD 1 0) (s.getD 0 0) := by
  unfold processSeed
  rw [if_pos h]

theorem processSeed_of_short (m : List PNode) (s : List ℚ)
    (h : s.length < 2) : processSeed m s = m := by
  unfold processSeed
  rw [if_neg (by omega)]

theorem processSeed_mono (m : List PNode) (s : List ℚ) (idp : PNodeId)
    (h : hasNodeId m idp) : hasNodeId (processSeed m s) idp := by
  by_cases hl : 2 ≤ s.length
  · rw [processSeed_of_len m s hl]
    exact insertNode_mono _ _ _ _ h
  · rw [processSeed_of_short m s (by omega)]
    exact h

theorem processSeed_coords (m : List PNode) (s : List ℚ)
    (h : ∀ n ∈ m, n.id = (n.x, n.y)) :
    ∀ n ∈ processSeed m s, n.id = (n.x, n.y) := by
  by_cases hl : 2 ≤ s.length
  · rw [processSeed_of_len m s hl]
    exact insertNode_coords _ _ _ h
  · rw [processSeed_of_short m s (by omega)]
    exact h

theorem processSeed_nodup (m : List PNode) (s : List ℚ)
    (h : (m.map PNode.id).Nodup) :
    ((processSeed m s).map PNode.id).Nodup := by
  by_cases hl : 2 ≤ s.length
  · rw [processSeed_of_len m s hl]
    exact insertNode_nodup _ _ _ h
  · rw [processSeed_of_short m s (by omega)]
    exact h

theorem foldl_processSeed_mono (seeds : List (List ℚ)) (m : List PNode)
    (idp : PNodeId) (h : hasNodeId m idp) :
    hasNodeId (seeds.foldl processSeed m) idp := by
  induction seeds generalizing m with
  | nil => exact h
  | cons s rest ih => exact ih _ (processSeed_mono _ _ _ h)

theorem foldl_processSeed_coords (seeds : List (List ℚ)) (m : List PNode)
    (h : ∀ n ∈ m, n.id = (n.x, n.y)) :
    ∀ n ∈ seeds.foldl processSeed m, n.id = (n.x, n.y) := by
  induction seeds generalizing m with
  | nil => exact h
  | cons s rest ih => exact ih _ (processSeed_coords _ _ h)

theorem foldl_processSeed_nodup (seeds : List (List ℚ)) (m : List PNode)
    (h : (m.map PNode.id).Nodup) :
    ((seeds.foldl processSeed m).map PNode.id).Nodup := by
  induction seeds generalizing m with
  | nil => exact h
  | cons s rest ih => exact ih _ (processSeed_nodup _ _ h)

theorem foldl_processSeed_mem (seeds : List (List ℚ)) (m : List PNode)
    (s : List ℚ) (hs : s ∈ seeds) (hlen : 2 ≤ s.length) :
    hasNodeId (seeds.foldl processSeed m) (s.getD 1 0, s.getD 0 0) := by
  induction seeds generalizing m with
  | nil => cases hs
  | cons s0 rest ih =>
      rcases List.mem_cons.mp hs with rfl | hs'
      · rw [List.foldl_cons]
        apply foldl_processSeed_mono
        rw [processSeed_of_len m s hlen]
        exact insertNode_self _ _ _
      · rw [List.foldl_cons]
        exact ih _ hs'

theorem processEdge_of_valid (acc : List PNode × List PEdge) (idx : ℕ)
    (raw : List (List ℚ)) (h : 2 ≤ (raw.filterMap parsePoint).length) :
    processEdge acc (idx, raw) =
      (insertNode
        (insertNode acc.1 (raw.filterMap parsePoint).headI.x
          (raw.filterMap parsePoint).headI.y)
        (raw.filterMap parsePoint).getLastI.x
        (raw.filterMap parsePoint).getLastI.y,
       acc.2 ++ [⟨idx,
         ((raw.filterMap parsePoint).headI.x,
          (raw.filterMap parsePoint).headI.y),
         ((raw.filterMap parsePoint).getLastI.x,
          (raw.filterMap parsePoint).getLastI.y),
         if 2 < (raw.filterMap parsePoint).length then
           some (raw.filterMap parsePoint) else none⟩]) := by
  have hraw : 2 ≤ raw.length :=
    le_trans h (List.length_filterMap_le _ _)
  unfold processEdge
  simp only [if_pos hraw, if_pos h]

theorem processEdge_of_invalid (acc : List PNode × List PEdge) (idx : ℕ)
    (raw : List (List ℚ)) (h : (raw.filterMap parsePoint).length < 2) :
    processEdge acc (idx, raw) = acc := by
  unfold processEdge
  by_cases hraw : 2 ≤ raw.length
  · simp only [if_pos hraw, if_neg (by omega : ¬ 2 ≤ (raw.filterMap parsePoint).length)]
  · simp only [if_neg hraw]

theorem edgeOfEntry_of_valid (idx : ℕ) (raw : List (List ℚ))
    (h : 2 ≤ (raw.filterMap parsePoint).length) :
    edgeOfEntry idx raw =
      some ⟨idx,
        ((raw.filterMap parsePoint).headI.x,
         (raw.filterMap parsePoint).headI.y),
        ((raw.filterMap parsePoint).getLastI.x,
         (raw.filterMap parsePoint).getLastI.y),
        if 2 < (raw.filterMap parsePoint).length then
          some (raw.filterMap parsePoint) else none⟩ := by
  have hraw : 2 ≤ raw.length :=
    le_trans h (List.length_filterMap_le _ _)
  unfold edgeOfEntry
  simp only [if_pos hraw, if_pos h]

theorem edgeOfEntry_of_invalid (idx : ℕ) (raw : List (List ℚ))
    (h : (raw.filterMap parsePoint).length < 2) :
    edgeOfEntry idx raw = none := by
  unfold edgeOfEntry
  by_cases hraw : 2 ≤ raw.length
  · simp only [if_pos hraw, if_neg (by omega : ¬ 2 ≤ (raw.filterMap parsePoint).length)]
  · simp only [if_neg hraw]

theorem processEdge_snd (acc : List PNode × List PEdge)
    (entry : ℕ × List (List ℚ)) :
    (processEdge acc entry).2 =
      acc.2 ++ (edgeOfEntry entry.1 entry.2).toList := by
  obtain ⟨idx, raw⟩ := entry
  by_cases h : 2 ≤ (raw.filterMap parsePoint).length
  · rw [processEdge_of_valid acc idx raw h, edgeOfEntry_of_valid idx raw h]
    rfl
  · rw [processEdge_of_invalid acc idx raw (by omega),
      edgeOfEntry_of_invalid idx raw (by omega)]
    simp

theorem processEdge_fst_mono (acc : List PNode × List PEdge)
    (entry : ℕ × List (List ℚ)) (idp : PNodeId)
    (h : hasNodeId acc.1 idp) : hasNodeId (processEdge acc entry).1 idp := by
  obtain ⟨idx, raw⟩ := entry
  by_cases hv : 2 ≤ (raw.filterMap parsePoint).length
  · rw [processEdge_of_valid acc idx raw hv]
    exact insertNode_mono _ _ _ _ (insertNode_mono _ _ _ _ h)
  · rw [processEdge_of_invalid acc idx raw (by omega)]
    exact h

theorem processEdge_coords (acc : List PNode × List PEdge)
    (entry : ℕ × List (List ℚ))
    (h : ∀ n ∈ acc.1, n.id = (n.x, n.y)) :
    ∀ n ∈ (processEdge acc entry).1, n.id = (n.x, n.y) := by
  obtain ⟨idx, raw⟩ := entry
  by_cases hv : 2 ≤ (raw.filterMap parsePoint).length
  · rw [processEdge_of_valid acc idx raw hv]
    exact insertNode_coords _ _ _ (insertNode_coords _ _ _ h)
  · rw [processEdge_of_invalid acc idx raw (by omega)]
    exact h

theorem processEdge_nodup (acc : List PNode × List PEdge)
    (entry : ℕ × List (List ℚ))
    (h : (acc.1.map PNode.id).Nodup) :
    ((processEdge acc entry).1.map PNode.id).Nodup := by
  obtain ⟨idx, raw⟩ := entry
  by_cases hv : 2 ≤ (raw.filterMap parsePoint).length
  · rw [processEdge_of_valid acc idx raw hv]
    exact insertNode_nodup _ _ _ (insertNode_nodup _ _ _ h)
  · rw [processEdge_of_invalid acc idx raw (by omega)]
    exact h

theorem processEdge_wf (acc : List PNode × List PEdge)
    (entry : ℕ × List (List ℚ))
    (h : ∀ e ∈ acc.2, hasNodeId acc.1 e.sourceId ∧ hasNodeId acc.1 e.targetId) :
    ∀ e ∈ (processEdge acc entry).2,
      hasNodeId (processEdge acc entry).1 e.sourceId ∧
      hasNodeId (processEdge acc entry).1 e.targetId := by
  obtain ⟨idx, raw⟩ := entry
  by_cases hv : 2 ≤ (raw.filterMap parsePoint).length
  · rw [processEdge_of_valid acc idx raw hv]
    intro e he
    rcases List.mem_append.mp he with h1 | h1
    · rcases h e h1 with ⟨hsrc, htgt⟩
      exact ⟨insertNode_mono _ _ _ _ (insertNode_mono _ _ _ _ hsrc),
             insertNode_mono _ _ _ _ (insertNode_mono _ _ _ _ htgt)⟩
    · simp only [List.mem_singleton] at h1
      subst h1
      exact ⟨insertNode_mono _ _ _ _ (insertNode_self _ _ _),
             insertNode_self _ _ _⟩
  · rw [processEdge_of_invalid acc idx raw (by omega)]
    exact h

theorem foldl_processEdge_snd (L : List (ℕ × List (List ℚ)))
    (acc : List PNode × List PEdge) :
    (L.foldl processEdge acc).2 =
      acc.2 ++ L.filterMap (fun p => edgeOfEntry p.1 p.2) := by
  induction L generalizing acc with
  | nil => simp
  | cons p rest ih =>
      rw [List.foldl_cons, ih, processEdge_snd]
      cases hfp : edgeOfEntry p.1 p.2 <;>
        simp [List.filterMap_cons, hfp]

theorem foldl_processEdge_fst_mono (L : List (ℕ × List (List ℚ)))
    (acc : List PNode × List PEdge) (idp : PNodeId)
    (h : hasNodeId acc.1 idp) : hasNodeId (L.foldl processEdge acc).1 idp := by
  induction L generalizing acc with
  | nil => exact h
  | cons p rest ih => exact ih _ (processEdge_fst_mono _ _ _ h)

theorem foldl_processEdge_coords (L : List (ℕ × List (List ℚ)))
    (acc : List PNode × List PEdge)
    (h : ∀ n ∈ acc.1, n.id = (n.x, n.y)) :
    ∀ n ∈ (L.foldl processEdge acc).1, n.id = (n.x, n.y) := by
  induction L generalizing acc with
  | nil => exact h
  | cons p rest ih => exact ih _ (processEdge_coords _ _ h)

theorem foldl_processEdge_nodup (L : List (ℕ × List (List ℚ)))
    (acc : List PNode × List PEdge)
    (h : (acc.1.map PNode.id).Nodup) :
    (((L.foldl processEdge acc).1).map PNode.id).Nodup := by
  induction L generalizing acc with
  | nil => exact h
  | cons p rest ih => exact ih _ (processEdge_nodup _ _ h)

theorem foldl_processEdge_wf (L : List (ℕ × List (List ℚ)))
    (acc : List PNode × List PEdge)
    (h : ∀ e ∈ acc.2, hasNodeId acc.1 e.sourceId ∧ hasNodeId acc.1 e.targetId) :
    ∀ e ∈ (L.foldl processEdge acc).2,
      hasNodeId (L.foldl processEdge acc).1 e.sourceId ∧
      hasNodeId (L.foldl processEdge acc).1 e.targetId := by
  induction L generalizing acc with
  | nil => exact h
  | cons p rest ih => exact ih _ (processEdge_wf _ _ h)

theorem edgeOfEntry_id (idx : ℕ) (raw : List (List ℚ)) (e : PEdge)
    (h : edgeOfEntry idx raw = some e) : e.id = idx := by
  by_cases hv : 2 ≤ (raw.filterMap parsePoint).length
  · rw [edgeOfEntry_of_valid idx raw hv] at h
    cases h
    rfl
  · rw [edgeOfEntry_of_invalid idx raw (by omega)] at h
    cases h

theorem enum_index_unique {α : Type} (l : List α) (p q : ℕ × α)
    (hp : p ∈ l.enum) (hq : q ∈ l.enum) (h : p.1 = q.1) : p = q := by
  have h1 := List.mem_enum_iff_getElem?.mp hp
  have h2 := List.mem_enum_iff_getElem?.mp hq
  rw [h] at h1
  have h12 : some p.2 = some q.2 := h1.symm.trans h2
  have hsnd : p.2 = q.2 := Option.some_inj.mp h12
  obtain ⟨p1, p2⟩ := p
  obtain ⟨q1, q2⟩ := q
  simp only at h hsnd
  rw [h, hsnd]

/-- C7: the pipeline import conversion (i) gives every node the id
derived deterministically from its coordinates, (ii) collapses duplicate
coordinate pairs to one node (node ids are duplicate-free), (iii) still
applies every seed with at least two components, (iv) turns every
indexed point-sequence with at least two valid coordinate pairs into an
edge with that index from the sequence's first to its last valid point,
whose path field is present exactly when there are more than two valid
points and whose endpoints exist in the node collection, (v) produces no
edge for a sequence with fewer than two valid coordinate pairs, and
(vi) at the step level, malformed seeds and malformed point-sequences
leave the accumulated state unchanged (they are dropped). -/
theorem convertPipelineResult_correct (seeds : List (List ℚ))
    (rawEdges : List (List (List ℚ))) :
    (∀ n ∈ (convertPipelineResult seeds rawEdges).nodes, n.id = (n.x, n.y)) ∧
    ((convertPipelineResult seeds rawEdges).nodes.map PNode.id).Nodup ∧
    (∀ s ∈ seeds, 2 ≤ s.length →
      hasNodeId (convertPipelineResult seeds rawEdges).nodes
        (s.getD 1 0, s.getD 0 0)) ∧
    (∀ entry ∈ rawEdges.enum, 2 ≤ (entry.2.filterMap parsePoint).length →
      ∃ e ∈ (convertPipelineResult seeds rawEdges).edges,
        e.id = entry.1 ∧
        e.sourceId = ((entry.2.filterMap parsePoint).headI.x,
                      (entry.2.filterMap parsePoint).headI.y) ∧
        e.targetId = ((entry.2.filterMap parsePoint).getLastI.x,
                      (entry.2.filterMap parsePoint).getLastI.y) ∧
        e.path = (if 2 < (entry.2.filterMap parsePoint).length then
                    some (entry.2.filterMap parsePoint) else none) ∧
        hasNodeId (convertPipelineResult seeds rawEdges).nodes e.sourceId ∧
        hasNodeId (convertPipelineResult seeds rawEdges).nodes e.targetId) ∧
    (∀ entry ∈ rawEdges.enum, (entry.2.filterMap parsePoint).length < 2 →
      ∀ e ∈ (convertPipelineResult seeds rawEdges).edges, e.id ≠ entry.1) ∧
    (∀ (m : List PNode) (s : List ℚ), s.length < 2 → processSeed m s = m) ∧
    (∀ (acc : List PNode × List PEdge) (idx : ℕ) (raw : List (List ℚ)),
      (raw.filterMap parsePoint).length < 2 → processEdge acc (idx, raw) = acc) := by
  have hnodes_def : (convertPipelineResult seeds rawEdges).nodes =
      (rawEdges.enum.foldl processEdge (seeds.foldl processSeed [], [])).1 := rfl
  have hedges_def : (convertPipelineResult seeds rawEdges).edges =
      (rawEdges.enum.foldl processEdge (seeds.foldl processSeed [], [])).2 := rfl
  have hedges : (convertPipelineResult seeds rawEdges).edges =
      rawEdges.enum.filterMap (fun p => edgeOfEntry p.1 p.2) := by
    rw [hedges_def, foldl_processEdge_snd]
    exact List.nil_append _
  have hwf : ∀ e ∈ (convertPipelineResult seeds rawEdges).edges,
      hasNodeId (convertPipelineResult seeds rawEdges).nodes e.sourceId ∧
      hasNodeId (convertPipelineResult seeds rawEdges).nodes e.targetId := by
    rw [hnodes_def, hedges_def]
    exact foldl_processEdge_wf _ _ (by intro e he; cases he)
  refine ⟨?_, ?_, ?_, ?_, ?_, ?_, ?_⟩
  · rw [hnodes_def]
    exact foldl_processEdge_coords _ _
      (foldl_processSeed_coords _ _ (by intro n hn; cases hn))
  · rw [hnodes_def]
    exact foldl_processEdge_nodup _ _
      (foldl_processSeed_nodup _ _ (by simp))
  · intro s hs hlen
    rw [hnodes_def]
    exact foldl_processEdge_fst_mono _ _ _
      (foldl_processSeed_mem _ _ _ hs hlen)
  · intro entry hentry hval
    obtain ⟨idx, raw⟩ := entry
    refine ⟨⟨idx,
      ((raw.filterMap parsePoint).headI.x, (raw.filterMap parsePoint).headI.y),
      ((raw.filterMap parsePoint).getLastI.x,
       (raw.filterMap parsePoint).getLastI.y),
      if 2 < (raw.filterMap parsePoint).length then
        some (raw.filterMap parsePoint) else none⟩, ?_, rfl, rfl, rfl, rfl, ?_, ?_⟩
    · rw [hedges]
      exact List.mem_filterMap.mpr
        ⟨(idx, raw), hentry, edgeOfEntry_of_valid idx raw hval⟩
    · exact (hwf _ (by
        rw [hedges]
        exact List.mem_filterMap.mpr
          ⟨(idx, raw), hentry, edgeOfEntry_of_valid idx raw hval⟩)).1
    · exact (hwf _ (by
        rw [hedges]
        exact List.mem_filterMap.mpr
          ⟨(idx, raw), hentry, edgeOfEntry_of_valid idx raw hval⟩)).2
  · intro entry hentry hinval e he heq
    rw [hedges] at he
    rcases List.mem_filterMap.mp he with ⟨p, hp, hfp⟩
    have hid : e.id = p.1 := edgeOfEntry_id _ _ _ hfp
    have hpe : p = entry :=
      enum_index_unique _ _ _ hp hentry (by rw [← hid, heq])
    rw [hpe] at hfp
    rw [edgeOfEntry_of_invalid entry.1 entry.2 hinval] at hfp
    cases hfp
  · intro m s h
    exact processSeed_of_short m s h
  · intro acc idx raw h
    exact processEdge_of_invalid acc idx raw h

/-- C7 witness: on a concrete pipeline result, the duplicated seed
[1, 2] (i.e. y=1, x=2) yields the node (2, 1), and the malformed
one-point sequence at index 1 yields no edge. -/
theorem convertPipelineResult_witness :
    hasNodeId (convertPipelineResult [[1, 2], [1, 2], [5]]
        [[[0, 0], [1, 1], [2, 2]], [[3, 3]]]).nodes (2, 1) ∧
    (∀ e ∈ (convertPipelineResult [[1, 2], [1, 2], [5]]
        [[[0, 0], [1, 1], [2, 2]], [[3, 3]]]).edges, e.id ≠ 1) := by
  have h := convertPipelineResult_correct [[1, 2], [1, 2], [5]]
    [[[0, 0], [1, 1], [2, 2]], [[3, 3]]]
  exact ⟨h.2.2.1 [1, 2] (by decide) (by decide),
         h.2.2.2.2.1 (1, [[3, 3]]) (by decide) (by decide)⟩

instance (g : GraphData) : Decidable (edgesWellFormed g) :=
  decidable_of_iff
    (∀ e ∈ g.edges,
      (∃ n ∈ g.nodes, n.id = e.sourceId) ∧ (∃ n ∈ g.nodes, n.id = e.targetId))
    Iff.rfl

/-- Reachability of an editor state from the initial empty state by the
four core graph operations: creating a node by clicking empty canvas in
edit mode, extending the chain onto an existing (rendered, hence
present) node, deleting an edge, and deleting a node. Node and edge ids
are generated by uuidv4, so a freshly generated id differs from every id
already in the graph; the clicked node of handleNodeClick carries the
handler of a rendered node, so it is present in the graph. -/
inductive Reach : EditorState → Prop where
  | init : Reach initialState
  | clickEmpty (s : EditorState) (p : Point) (nid eid : String) :
      Reach s →
      (∀ n ∈ s.graph.nodes, n.id ≠ nid) →
      (∀ e ∈ s.graph.edges, e.id ≠ eid) →
      Reach (handleEmptyClick s p nid eid)
  | clickNode (s : EditorState) (nid eid : String) :
      Reach s →
      (∃ n ∈ s.graph.nodes, n.id = nid) →
      (∀ e ∈ s.graph.edges, e.id ≠ eid) →
      Reach (handleNodeClick s nid eid)
  | delEdge (s : EditorState) (eid : String) :
      Reach s → Reach (deleteEdge s eid)
  | delNode (s : EditorState) (nid : String) :
      Reach s → Reach (deleteNode s nid)

/-- A nine-step interaction reachable from the empty graph: build a
chain x–y–z, delete node z (resetting the anchor), start a fresh chain
a–b, click node a to re-anchor there, delete the edge a–b (pruning both
a and b but leaving the stale anchor a), then click the surviving node
x, which appends an edge from the no-longer-existing anchor a to x. -/
def c1State : EditorState :=
  handleNodeClick
    (deleteEdge
      (handleNodeClick
        (handleEmptyClick
          (handleEmptyClick
            (deleteNode
              (handleEmptyClick
                (handleEmptyClick
                  (handleEmptyClick initialState ⟨0, 0⟩ "x" "d1")
                  ⟨1, 0⟩ "y" "e1")
                ⟨2, 0⟩ "z" "e2")
              "z")
            ⟨3, 0⟩ "a" "d2")
          ⟨4, 0⟩ "b" "e3")
        "a" "d3")
      "e3")
    "x" "e4"

/-- C1 refuted on the code: the state c1State is reachable from the
empty graph by the four core operations, yet it violates invariant 1 —
it contains an edge (the one from the stale anchor "a" to "x") whose
sourceId refers to no node in the node collection. -/
theorem dangling_edge_reachable :
    Reach c1State ∧ ¬ edgesWellFormed c1State.graph := by
  constructor
  · exact Reach.clickNode _ _ _
      (Reach.delEdge _ _
        (Reach.clickNode _ _ _
          (Reach.clickEmpty _ _ _ _
            (Reach.clickEmpty _ _ _ _
              (Reach.delNode _ _
                (Reach.clickEmpty _ _ _ _
                  (Reach.clickEmpty _ _ _ _
                    (Reach.clickEmpty _ _ _ _ Reach.init
                      (by decide) (by decide))
                    (by decide) (by decide))
                  (by decide) (by decide)))
              (by decide) (by decide))
            (by decide) (by decide))
          (by decide) (by decide)))
      (by decide) (by decide)
  · decide

end NeuralGui
